import Mathlib

/-!
Verification of the `project_dumper` repository.

Lines of text are modelled as `List Char` (Python `str`), byte strings as
`List Nat` (Python `bytes`), and sets of line indices as `Finset Nat`.
Python's `\s` / `str.strip` whitespace classes are modelled over their ASCII
part, which is the fragment exercised by the program.
-/

namespace ProjectDumper

/-- ASCII part of Python's whitespace class (`\s`, `str.strip()`). -/
def isPySpace (c : Char) : Bool :=
  c = ' ' || c = '\t' || c = '\n' || c = '\r' || c = '\x0b' || c = '\x0c'

/-- Python `str.lstrip()`. -/
def pyLstrip (s : List Char) : List Char := s.dropWhile isPySpace

/-- Python `str.rstrip()`. -/
def pyRstrip (s : List Char) : List Char := (s.reverse.dropWhile isPySpace).reverse

/-- Python `str.strip()`. -/
def pyStrip (s : List Char) : List Char := pyRstrip (pyLstrip s)

/-- Python `str.startswith` over `List Char` (Boolean prefix test). -/
def leadsWith : List Char → List Char → Bool
  | [], _ => true
  | _ :: _, [] => false
  | a :: as, b :: bs => a = b && leadsWith as bs

/-- Python `str.find(needle)`: index of the first occurrence, `none` for -1. -/
def findSub (needle : List Char) : List Char → Option Nat
  | [] => if leadsWith needle [] then some 0 else none
  | c :: t => if leadsWith needle (c :: t) then some 0
              else (findSub needle t).map (· + 1)

/-!
## diff_logic.py

`DiffLineType`, `detect_diff_block_indices`, `find_hunk_header_prefix`,
`_is_empty_hunk_header`, `strip_for_copy`, `get_group_indices`,
`classify_line`, translated from `src/project_dumper/diff_logic.py`.
Indices are `Nat`; Python's `index < 0` guards collapse into the `Nat` domain.
-/

/-- The line-type taxonomy of `diff_logic.DiffLineType`. -/
inductive DiffLineType where
  | plus
  | minus
  | headerDiff
  | headerHunk
  | headerHunkEmpty
  | other
deriving DecidableEq, Repr

/-- ASCII part of Python's regex word class `\w`. -/
def isWordChar (c : Char) : Bool :=
  ('a' ≤ c && c ≤ 'z') || ('A' ≤ c && c ≤ 'Z') || ('0' ≤ c && c ≤ '9') || c = '_'

/-- The regex `^\s*diff\b` of `_RE_DIFF_HEADER` as a Boolean test: leading
whitespace, the literal `diff`, then a word boundary. -/
def isDiffHeaderLine (line : List Char) : Bool :=
  let rest := line.dropWhile isPySpace
  leadsWith ['d', 'i', 'f', 'f'] rest &&
    (match rest.drop 4 with
     | [] => true
     | c :: _ => !(isWordChar c))

/-- The set a matched `diff` header at index `i` contributes in
`detect_diff_block_indices`: the index itself plus up to the next three
indices that exist (`for k in range(1, 4): if i + k >= n: break`). -/
def diffBlockAt (n i : Nat) : Finset Nat :=
  insert i (Finset.filter (· < n) {i + 1, i + 2, i + 3})

/-- One iteration of the scan loop of `detect_diff_block_indices`. -/
def detectStep (lines : List (List Char)) (acc : Finset Nat) (i : Nat) :
    Finset Nat :=
  if isDiffHeaderLine (lines.getD i []) then acc ∪ diffBlockAt lines.length i
  else acc

/-- `detect_diff_block_indices(lines)`: scan all indices in order; whenever
the line matches `^\s*diff\b`, add the index and up to the next three
existing indices. -/
def detectDiffBlockIndices (lines : List (List Char)) : Finset Nat :=
  (List.range lines.length).foldl (detectStep lines) ∅

/-- Search for the closing `@@` of the non-greedy regex fragment `.*?@@`:
the first index where `@@` starts, with no `'\n'` allowed before it
(`.` does not match a newline). -/
def findClose : List Char → Option Nat
  | [] => none
  | c :: t =>
    if leadsWith ['@', '@'] (c :: t) then some 0
    else if c = '\n' then none
    else (findClose t).map (· + 1)

/-- `find_hunk_header_prefix(line)`: the regex `^(\s*@@.*?@@)` of
`_RE_HUNK_HEADER`.  The Python function returns `slice(0, stop)`; since the
span always starts at 0, the model returns just the stop index (or `none`
when the regex does not match). -/
def findHunkHeaderPrefix (line : List Char) : Option Nat :=
  let wsn := (line.takeWhile isPySpace).length
  let rest := line.drop wsn
  if leadsWith ['@', '@'] rest then
    match findClose (rest.drop 2) with
    | some i => some (wsn + 2 + i + 2)
    | none => none
  else none

/-- `_is_empty_hunk_header(line)`: after `lstrip`, the line starts with `@@`
and either has no second `@@`, or only whitespace strictly between the two. -/
def isEmptyHunkHeader (line : List Char) : Bool :=
  let stripped := pyLstrip line
  if leadsWith ['@', '@'] stripped then
    let rest := stripped.drop 2
    match findSub ['@', '@'] rest with
    | none => true
    | some i => (pyStrip (rest.take i)).isEmpty
  else false

/-- `strip_for_copy(line)`: empty hunk headers copy as nothing; otherwise,
when the first character is neither `+` nor `-`, a hunk-header prefix at
position 0 is removed, and then the first remaining character is dropped. -/
def stripForCopy (line : List Char) : List Char :=
  if isEmptyHunkHeader line then []
  else
    let s :=
      match line with
      | [] => line
      | c :: _ =>
        if c = '+' || c = '-' then line
        else
          match findHunkHeaderPrefix line with
          | some stop => line.drop stop
          | none => line
    s.drop 1

/-- Context-line test of `get_group_indices`: the neighbor is non-empty and
its first character is a space or a tab. -/
def isCtxLine (l : List Char) : Bool :=
  match l with
  | [] => false
  | c :: _ => c = ' ' || c = '\t'

/-- The left-extension loop of `get_group_indices`
(`while start - 1 >= 0 and p(lines[start - 1]): start -= 1`). -/
def extendLeft (lines : List (List Char)) (p : List Char → Bool) : Nat → Nat
  | 0 => 0
  | s + 1 => if p (lines.getD s []) then extendLeft lines p s else s + 1

/-- The right-extension loop of `get_group_indices`
(`while end + 1 < n and p(lines[end + 1]): end += 1`), with explicit fuel;
the wrapper `extendRight` supplies `lines.length` fuel, which is always
sufficient since `e` stays below `lines.length`. -/
def extendRightAux (lines : List (List Char)) (p : List Char → Bool) :
    Nat → Nat → Nat
  | 0, e => e
  | fuel + 1, e =>
    if e + 1 < lines.length then
      if p (lines.getD (e + 1) []) then extendRightAux lines p fuel (e + 1)
      else e
    else e

/-- The right-extension loop of `get_group_indices`. -/
def extendRight (lines : List (List Char)) (p : List Char → Bool) (e : Nat) : Nat :=
  extendRightAux lines p lines.length e

/-- `get_group_indices(lines, index)`: the contiguous copy group around a
clicked line — sign runs for `+`/`-`, whitespace-context runs for leading
space/tab, singleton otherwise, empty for an out-of-range index. -/
def getGroupIndices (lines : List (List Char)) (index : Nat) : List Nat :=
  if lines.length ≤ index then []
  else
    match lines.getD index [] with
    | [] => [index]
    | c :: _ =>
      if c = '+' || c = '-' then
        let s := extendLeft lines (fun l => leadsWith [c] l) index
        let e := extendRight lines (fun l => leadsWith [c] l) index
        List.range' s (e + 1 - s)
      else if c = ' ' || c = '\t' then
        let s := extendLeft lines isCtxLine index
        let e := extendRight lines isCtxLine index
        List.range' s (e + 1 - s)
      else [index]

/-- `classify_line(lines, index, diff_block_indices)`: out-of-range is
`OTHER`; diff-block membership wins; then empty hunk header, hunk header,
`+`, `-`, and `OTHER` in that order. -/
def classifyLine (lines : List (List Char)) (index : Nat)
    (diffBlockIndices : Finset Nat) : DiffLineType :=
  if lines.length ≤ index then .other
  else if index ∈ diffBlockIndices then .headerDiff
  else
    let line := lines.getD index []
    if isEmptyHunkHeader line then .headerHunkEmpty
    else if (findHunkHeaderPrefix line).isSome then .headerHunk
    else if leadsWith ['+'] line then .plus
    else if leadsWith ['-'] line then .minus
    else .other

/-!
## reader.py

`is_binary_sample` and the first-chunk decode logic of `read_text_streaming`,
translated from `src/project_dumper/reader.py`.  Bytes are `List Nat`, the
Python `float` threshold is modelled as an exact rational, and the codec
registry is modelled by the two codecs the development needs (`utf-8`, which
can fail under `strict`, and `latin-1`, which never fails); decoded text is
kept as a list of code points.
-/

/-- Membership in `_TEXT_CHARS`: `{7,8,9,10,12,13,27} | set(range(0x20, 0x100))`. -/
def isTextByte (ch : Nat) : Bool :=
  ch = 7 || ch = 8 || ch = 9 || ch = 10 || ch = 12 || ch = 13 || ch = 27 ||
    (0x20 ≤ ch && ch ≤ 0xFF)

/-- The count `sum(ch not in _TEXT_CHARS for ch in b)`. -/
def countNonText (b : List Nat) : Nat :=
  (b.filter (fun ch => !(isTextByte ch))).length

/-- `is_binary_sample(b, threshold)`: any NUL byte is binary; otherwise a
non-empty sample is binary iff the non-text fraction strictly exceeds the
threshold. -/
def isBinarySample (b : List Nat) (threshold : ℚ) : Bool :=
  if 0 ∈ b then true
  else if b = [] then false
  else decide ((countNonText b : ℚ) / (b.length : ℚ) > threshold)

/-- The `errors=` policy of `bytes.decode` (`cfg.errors_policy`). -/
inductive ErrorsPolicy where
  | strict
  | replace
  | ignore
deriving DecidableEq, Repr

/-- The codecs the model instantiates the registry with. -/
inductive Codec where
  | utf8
  | latin1
deriving DecidableEq, Repr

/-- One step of UTF-8 decoding: the code point and the number of bytes
consumed for a well-formed sequence at the head, `none` otherwise
(continuation ranges as in RFC 3629: no overlong forms, no surrogates,
nothing above U+10FFFF). -/
def utf8DecodeOne : List Nat → Option (Nat × Nat)
  | [] => none
  | b :: rest =>
    if b < 0x80 then some (b, 1)
    else if 0xC2 ≤ b && b ≤ 0xDF then
      match rest with
      | c1 :: _ =>
        if 0x80 ≤ c1 && c1 ≤ 0xBF then some ((b - 0xC0) * 0x40 + (c1 - 0x80), 2)
        else none
      | [] => none
    else if 0xE0 ≤ b && b ≤ 0xEF then
      match rest with
      | c1 :: c2 :: _ =>
        let lo1 := if b = 0xE0 then 0xA0 else 0x80
        let hi1 := if b = 0xED then 0x9F else 0xBF
        if lo1 ≤ c1 && c1 ≤ hi1 && 0x80 ≤ c2 && c2 ≤ 0xBF then
          some ((b - 0xE0) * 0x1000 + (c1 - 0x80) * 0x40 + (c2 - 0x80), 3)
        else none
      | _ => none
    else if 0xF0 ≤ b && b ≤ 0xF4 then
      match rest with
      | c1 :: c2 :: c3 :: _ =>
        let lo1 := if b = 0xF0 then 0x90 else 0x80
        let hi1 := if b = 0xF4 then 0x8F else 0xBF
        if lo1 ≤ c1 && c1 ≤ hi1 && 0x80 ≤ c2 && c2 ≤ 0xBF &&
            0x80 ≤ c3 && c3 ≤ 0xBF then
          some ((b - 0xF0) * 0x40000 + (c1 - 0x80) * 0x1000 +
            (c2 - 0x80) * 0x40 + (c3 - 0x80), 4)
        else none
      | _ => none
    else none

/-- Fuelled UTF-8 decode of a whole byte string under an error policy:
`strict` fails on the first ill-formed sequence, `replace` emits U+FFFD for
it, `ignore` drops it.  Each step consumes at least one byte, so
`bs.length` fuel (supplied by `decodeUtf8`) never runs out. -/
def decodeUtf8Fuel (pol : ErrorsPolicy) : Nat → List Nat → Except Unit (List Nat)
  | _, [] => .ok []
  | 0, _ :: _ => .error ()
  | fuel + 1, b :: rest =>
    match utf8DecodeOne (b :: rest) with
    | some (cp, k) =>
      (decodeUtf8Fuel pol fuel (rest.drop (k - 1))).map (cp :: ·)
    | none =>
      match pol with
      | .strict => .error ()
      | .replace => (decodeUtf8Fuel pol fuel rest).map (0xFFFD :: ·)
      | .ignore => decodeUtf8Fuel pol fuel rest

/-- `bytes.decode("utf-8", errors=pol)` over code points. -/
def decodeUtf8 (pol : ErrorsPolicy) (bs : List Nat) : Except Unit (List Nat) :=
  decodeUtf8Fuel pol bs.length bs

/-- `bytes.decode(enc, errors=pol)` for the modelled codecs; `latin-1` maps
every byte to the same code point and never fails. -/
def decodeBytes : Codec → ErrorsPolicy → List Nat → Except Unit (List Nat)
  | .utf8, pol, bs => decodeUtf8 pol bs
  | .latin1, _, bs => .ok bs

/-- The configuration fields `read_text_streaming`'s first-chunk decode
consults (`config.Config`). -/
structure ReaderConfig where
  encoding : Codec
  errorsPolicy : ErrorsPolicy
  detectEncoding : Bool

/-- The first-chunk decode of `read_text_streaming` (reader.py lines 32–47):
try the configured encoding; on failure, when detection is enabled and the
detector is importable, use a confident detection result if there is one;
otherwise re-decode the same chunk with the configured encoding and policy.
`detectorAvailable` models `from_bytes is not None`, and `detection` models
`from_bytes(data).best()` (`some (enc, out)` when confident).  The result is
the list of yielded fragments plus the encoding settled on for later chunks;
`.error` models an exception escaping to the caller. -/
def firstChunkDecode (cfg : ReaderConfig) (detectorAvailable : Bool)
    (detection : Option (Codec × List Nat)) (data : List Nat) :
    Except Unit (List (List Nat) × Codec) :=
  match decodeBytes cfg.encoding cfg.errorsPolicy data with
  | .ok text => .ok ([text], cfg.encoding)
  | .error _ =>
    if cfg.detectEncoding && detectorAvailable then
      match detection with
      | some (enc, out) => .ok ([out], enc)
      | none =>
        (decodeBytes cfg.encoding cfg.errorsPolicy data).map
          (fun t => ([t], cfg.encoding))
    else
      (decodeBytes cfg.encoding cfg.errorsPolicy data).map
        (fun t => ([t], cfg.encoding))

/-!
## gitignore_cache.py

The pattern-compilation loop of `GitignoreCache.build` and the
`GitignoreCache.ignored` lookup, translated from
`src/project_dumper/gitignore_cache.py`.  Filesystem paths are lists of
segments (the components of a resolved absolute path); the compiled
`PathSpec` matcher is abstracted as a Boolean predicate on the root-relative
POSIX path, since `pathspec` is an external library.
-/

/-- Python `str.lstrip("/")`. -/
def lstripSlash (s : List Char) : List Char := s.dropWhile (· = '/')

/-- The body of `GitignoreCache.build`'s per-line loop for one raw
`.gitignore` line: `baseRel` is the containing `.gitignore` directory's path
relative to the scan root (`""` when the `.gitignore` sits at the root).
Returns the compiled pattern, or `none` for blank and comment lines. -/
def compileLine (baseRel : List Char) (raw : List Char) : Option (List Char) :=
  let s := pyStrip raw
  if s.isEmpty || leadsWith ['#'] s then none
  else
    let neg := leadsWith ['!'] s
    let pat := if neg then s.drop 1 else s
    let pat2 :=
      if leadsWith ['/'] pat then lstripSlash pat
      else if baseRel.isEmpty then pat
      else baseRel ++ '/' :: pat
    let norm := List.intercalate ['/'] ((pat2.splitOn '/').filter (· ≠ ['.']))
    some ((if neg then ['!'] else []) ++ norm)

/-- `Modelled from the spec:` the anchoring rule §4.1 states for a rooted
pattern — "a pattern starting with `/` is rooted at its containing
`.gitignore`'s directory with the leading slash stripped", i.e. the
slash-stripped pattern prefixed by the containing directory's root-relative
path (empty prefix when the `.gitignore` is at the root). -/
def specCompileRooted (baseRel : List Char) (pat : List Char) : List Char :=
  if baseRel.isEmpty then lstripSlash pat
  else baseRel ++ '/' :: lstripSlash pat

/-- The mutable fields of `GitignoreCache` that `ignored` consults: the root
(as a resolved segment path) and the compiled matcher (`none` when no
pattern contributed). -/
structure GitignoreCacheState where
  root : Option (List String)
  spec : Option (String → Bool)

/-- `as_posix` of a relative segment path (`"."` for the empty path, as
`pathlib` produces for `p.relative_to(p)`). -/
def relPosix (segs : List String) : String :=
  if segs.isEmpty then "." else String.intercalate "/" segs

/-- `GitignoreCache.ignored(path)`: `False` when `pathspec` is missing or no
root/matcher is set; otherwise resolve the path root-relatively — raising
(modelled as `.error ()`, pathlib's `ValueError`) when the path is not under
the root — append a trailing slash for directories, and evaluate the
matcher. -/
def ignoredLookup (pathspecAvailable : Bool) (c : GitignoreCacheState)
    (path : List String) (isDir : Bool) : Except Unit Bool :=
  match pathspecAvailable, c.root, c.spec with
  | true, some root, some spec =>
    if root.isPrefixOf path then
      let rel := relPosix (path.drop root.length)
      let rel := if isDir && !(rel.endsWith "/") then rel ++ "/" else rel
      .ok (spec rel)
    else .error ()
  | _, _, _ => .ok false

/-!
## formatter.py

`DumpBuilder`, translated from `src/project_dumper/formatter.py`.  The text
buffer (`io.StringIO`) is a `List Char`; JSON mode accumulates the `obj`
dictionary in the `jtree`/`jfiles` fields, and `build` returns the
structured document for that mode (its `json.dumps` serialization is an
injective rendering the claims do not inspect).
-/

/-- The literal separator token `SEP = "====="`. -/
def SEP : List Char := "=====".toList

/-- The three output modes of `DumpBuilder`. -/
inductive Mode where
  | txt
  | md
  | json
deriving DecidableEq, Repr

/-- The state of a `DumpBuilder`. -/
structure DumpBuilderState where
  mode : Mode
  buf : List Char
  jtree : List Char
  jfiles : List (List Char × List Char)

/-- `DumpBuilder.__init__(mode)`. -/
def DumpBuilderState.init (m : Mode) : DumpBuilderState := ⟨m, [], [], []⟩

/-- `DumpBuilder.set_tree(tree)`. -/
def DumpBuilderState.setTree (b : DumpBuilderState) (t : List Char) :
    DumpBuilderState :=
  match b.mode with
  | .json => { b with jtree := t }
  | .md =>
    { b with buf := b.buf ++ "# Структура проекта\n\n```\n".toList ++ t ++
        "\n```\n\n".toList }
  | .txt =>
    { b with buf := b.buf ++ "Структура проекта\n\n".toList ++ t ++
        "\n\n".toList }

/-- `DumpBuilder.start_file(relpath)`. -/
def DumpBuilderState.startFile (b : DumpBuilderState) (p : List Char) :
    DumpBuilderState :=
  match b.mode with
  | .json => { b with jfiles := b.jfiles ++ [(p, [])] }
  | .md => { b with buf := b.buf ++ "## ".toList ++ p ++ "\n\n".toList }
  | .txt => { b with buf := b.buf ++ p ++ "\n\n".toList }

/-- `DumpBuilder.add_chunk(s)`; in JSON mode the chunk is appended to the
most recently started file's content (the `self._cur` alias). -/
def DumpBuilderState.addChunk (b : DumpBuilderState) (s : List Char) :
    DumpBuilderState :=
  match b.mode with
  | .json =>
    match b.jfiles.getLast? with
    | some cur => { b with jfiles := b.jfiles.dropLast ++ [(cur.1, cur.2 ++ s)] }
    | none => b
  | _ => { b with buf := b.buf ++ s }

/-- `DumpBuilder.end_file(is_last)`: in text/Markdown modes, a blank-line
separator, and — only when more sections follow — the `=====` token plus a
blank line. -/
def DumpBuilderState.endFile (b : DumpBuilderState) (isLast : Bool) :
    DumpBuilderState :=
  match b.mode with
  | .json => b
  | _ =>
    { b with buf := b.buf ++ "\n\n".toList ++
        (if isLast then [] else SEP ++ "\n\n".toList) }

/-- `DumpBuilder.build()`: the accumulated text for txt/md, the structured
document for JSON mode. -/
inductive BuildResult where
  | text (s : List Char)
  | jsonDoc (tree : List Char) (files : List (List Char × List Char))
deriving DecidableEq, Repr

/-- `DumpBuilder.build()`. -/
def DumpBuilderState.build (b : DumpBuilderState) : BuildResult :=
  match b.mode with
  | .json => .jsonDoc b.jtree b.jfiles
  | _ => .text b.buf

/-- One full section: `start_file(p)`, the `add_chunk` calls, then
`end_file(is_last)`. -/
def runSection (b : DumpBuilderState) (sec : List Char × List (List Char))
    (isLast : Bool) : DumpBuilderState :=
  ((sec.2.foldl DumpBuilderState.addChunk (b.startFile sec.1))).endFile isLast

/-- The call sequence of the claim: the given sections in order, with
`is_last` true exactly on the final one. -/
def runSections : DumpBuilderState → List (List Char × List (List Char)) →
    DumpBuilderState
  | b, [] => b
  | b, [sec] => runSection b sec true
  | b, sec :: sec' :: rest => runSections (runSection b sec false) (sec' :: rest)

/-!
## walker.py — ScanThread.run

The event loop of `ScanThread.run` (walker.py lines 100–132) as a pure
function from the data the loop consumes to the ordered list of events it
puts on the queue.  The collapsed-ancestor test
(`any(p.is_relative_to(d) for d in self.collapsed)`) is the per-file
`collapsed` flag; a file's streaming read is its list of yielded chunks plus
an optional exception raised mid-stream (the pre-loop steps are pure data
here, so the modelled failure point is the reader, where the code's own
error handling varies).  An exception aborts the loop and emits one `error`
event, after which nothing further is emitted.
-/

/-- The tagged events put on the scan queue. -/
inductive Event where
  | tree (t : List Char)
  | total (n : Nat)
  | fileHeader (rel : List Char)
  | fileChunk (c : List Char)
  | fileSkipped (msg : List Char)
  | fileSep
  | progress (i : Nat)
  | done
  | error (msg : List Char)
deriving DecidableEq, Repr

/-- The placeholder fragment for collapsed-but-included files
(`"Содержимое скрыто"`). -/
def hiddenMsg : List Char := "Содержимое скрыто".toList

/-- One enumerated file as the loop sees it. -/
structure FileSpec where
  rel : List Char
  collapsed : Bool
  chunks : List (List Char)
  readError : Option (List Char)

/-- The per-file iterations of the loop, starting at 1-based index `i`;
the terminal `done` is emitted after the last file, a reader exception
emits `error` and stops. -/
def runFiles (includeCollapsed : Bool) : Nat → List FileSpec → List Event
  | _, [] => [.done]
  | i, f :: rest =>
    if f.collapsed && !includeCollapsed then
      .progress i :: runFiles includeCollapsed (i + 1) rest
    else if f.collapsed then
      .fileHeader f.rel :: .fileSkipped hiddenMsg :: .fileSep :: .progress i ::
        runFiles includeCollapsed (i + 1) rest
    else
      match f.readError with
      | none =>
        .fileHeader f.rel :: (f.chunks.map .fileChunk ++ .fileSep ::
          .progress i :: runFiles includeCollapsed (i + 1) rest)
      | some e =>
        .fileHeader f.rel :: (f.chunks.map .fileChunk ++ [.error e])

/-- The data one invocation of `ScanThread.run` consumes. -/
structure ScanInput where
  tree : List Char
  onlyTree : Bool
  includeCollapsed : Bool
  files : List FileSpec

/-- `ScanThread.run`: tree, then either immediate completion (tree-only) or
the total count followed by the per-file loop. -/
def scanEvents (inp : ScanInput) : List Event :=
  .tree inp.tree ::
    (if inp.onlyTree then [.done]
     else .total inp.files.length :: runFiles inp.includeCollapsed 1 inp.files)

/-!
## Derived definitions used to state the claims
-/

/-- Terminal events of the scan event stream (`done` / `error`). -/
def isTerminal : Event → Bool
  | .done => true
  | .error _ => true
  | _ => false

/-- The events the claim expects for one file at 1-based index `i`: only a
progress tick for a collapsed file when collapsed content is excluded;
otherwise a header, then either the hidden-content placeholder or the chunks
in read order, then the section separator and the progress tick. -/
def specFileEvents (includeCollapsed : Bool) (i : Nat) (f : FileSpec) :
    List Event :=
  if f.collapsed && !includeCollapsed then [.progress i]
  else
    .fileHeader f.rel ::
      ((if f.collapsed then [.fileSkipped hiddenMsg]
        else f.chunks.map .fileChunk) ++ [.fileSep, .progress i])

/-- The concatenation of the per-file expected events, indices starting at
`i`. -/
def specFilesEvents (includeCollapsed : Bool) : Nat → List FileSpec →
    List Event
  | _, [] => []
  | i, f :: rest =>
    specFileEvents includeCollapsed i f ++
      specFilesEvents includeCollapsed (i + 1) rest

/-- Number of positions at which `needle` occurs in a string (all positions,
including overlapping ones). -/
def countOcc (needle : List Char) : List Char → Nat
  | [] => 0
  | c :: t => (if leadsWith needle (c :: t) then 1 else 0) + countOcc needle t

/-- The text `set_tree` contributes to the buffer in text/Markdown mode. -/
def treeRender (m : Mode) (t : List Char) : List Char :=
  match m with
  | .md => "# Структура проекта\n\n```\n".toList ++ t ++ "\n```\n\n".toList
  | _ => "Структура проекта\n\n".toList ++ t ++ "\n\n".toList

/-- The text `start_file` contributes to the buffer in text/Markdown mode. -/
def headerRender (m : Mode) (p : List Char) : List Char :=
  match m with
  | .md => "## ".toList ++ p ++ "\n\n".toList
  | _ => p ++ "\n\n".toList

/-- The whole buffer text of one section: header, chunks, blank-line
separator. -/
def sectionRender (m : Mode) (sec : List Char × List (List Char)) :
    List Char :=
  headerRender m sec.1 ++ sec.2.flatten ++ "\n\n".toList

/-- The text `end_file` adds between sections: the `=====` token and a blank
line. -/
def sepBlock : List Char := SEP ++ "\n\n".toList

/-- Join a list of pieces with a separator between consecutive pieces (and
nowhere else). -/
def joinSep (sep : List Char) : List (List Char) → List Char
  | [] => []
  | [r] => r
  | r :: r' :: rest => r ++ sep ++ joinSep sep (r' :: rest)

/-!
## Supporting lemmas
-/

theorem leadsWith_singleton {c : Char} {l : List Char} :
    leadsWith [c] l = true ↔ l.head? = some c := by
  cases l with
  | nil => simp [leadsWith]
  | cons a t => simp [leadsWith, eq_comm]

theorem foldl_detectStep_mono {lines : List (List Char)} {x : Nat} :
    ∀ (l : List Nat) (acc : Finset Nat), x ∈ acc →
      x ∈ l.foldl (detectStep lines) acc := by
  intro l
  induction l with
  | nil => intro acc h; exact h
  | cons hd tl ih =>
    intro acc h
    rw [List.foldl_cons]
    apply ih
    unfold detectStep
    split
    · exact Finset.mem_union_left _ h
    · exact h

theorem foldl_detectStep_mem {lines : List (List Char)} {x i : Nat} :
    ∀ (l : List Nat) (acc : Finset Nat), i ∈ l →
      isDiffHeaderLine (lines.getD i []) = true →
      x ∈ diffBlockAt lines.length i →
      x ∈ l.foldl (detectStep lines) acc := by
  intro l
  induction l with
  | nil => intro acc h; simp at h
  | cons hd tl ih =>
    intro acc hmem hhdr hx
    rw [List.foldl_cons]
    rcases List.mem_cons.mp hmem with heq | htl
    · subst heq
      apply foldl_detectStep_mono
      unfold detectStep
      rw [if_pos hhdr]
      exact Finset.mem_union_right _ hx
    · exact ih _ htl hhdr hx

theorem decodeUtf8Fuel_ok {pol : ErrorsPolicy} (hpol : pol ≠ .strict) :
    ∀ (fuel : Nat) (bs : List Nat), bs.length ≤ fuel →
      ∃ out, decodeUtf8Fuel pol fuel bs = .ok out := by
  intro fuel
  induction fuel with
  | zero =>
    intro bs h
    cases bs with
    | nil => exact ⟨[], rfl⟩
    | cons b rest => simp at h
  | succ n ih =>
    intro bs h
    cases bs with
    | nil => exact ⟨[], rfl⟩
    | cons b rest =>
      have hrest : rest.length ≤ n := by simp at h; omega
      cases hone : utf8DecodeOne (b :: rest) with
      | some val =>
        obtain ⟨cp, k⟩ := val
        obtain ⟨out, hout⟩ := ih (rest.drop (k - 1))
          (le_trans (by simp) hrest)
        exact ⟨cp :: out, by simp [decodeUtf8Fuel, hone, hout, Except.map]⟩
      | none =>
        cases pol with
        | strict => exact absurd rfl hpol
        | replace =>
          obtain ⟨out, hout⟩ := ih rest hrest
          exact ⟨0xFFFD :: out, by simp [decodeUtf8Fuel, hone, hout, Except.map]⟩
        | ignore =>
          obtain ⟨out, hout⟩ := ih rest hrest
          exact ⟨out, by simp [decodeUtf8Fuel, hone, hout, Except.map]⟩

theorem decodeBytes_ok_of_not_strict (enc : Codec) {pol : ErrorsPolicy}
    (hpol : pol ≠ .strict) (data : List Nat) :
    ∃ out, decodeBytes enc pol data = .ok out := by
  cases enc with
  | utf8 => exact decodeUtf8Fuel_ok hpol data.length data le_rfl
  | latin1 => exact ⟨data, rfl⟩

theorem isCtxLine_eq_true {a : Char} {t : List Char} :
    isCtxLine (a :: t) = true ↔ (a = ' ' ∨ a = '\t') := by
  simp [isCtxLine]

theorem isCtxLine_head {l : List Char} :
    isCtxLine l = true ↔ ∃ d, l.head? = some d ∧ (d = ' ' ∨ d = '\t') := by
  cases l with
  | nil => simp [isCtxLine]
  | cons a t =>
    rw [isCtxLine_eq_true]
    constructor
    · intro h
      exact ⟨a, rfl, h⟩
    · rintro ⟨d, hd, hcase⟩
      simp only [List.head?_cons, Option.some.injEq] at hd
      subst hd
      exact hcase

theorem extendLeft_le (lines : List (List Char)) (p : List Char → Bool) :
    ∀ i, extendLeft lines p i ≤ i := by
  intro i
  induction i with
  | zero => exact le_rfl
  | succ n ih =>
    unfold extendLeft
    split
    · exact le_trans ih (Nat.le_succ n)
    · exact le_rfl

theorem extendLeft_holds (lines : List (List Char)) (p : List Char → Bool) :
    ∀ i j, extendLeft lines p i ≤ j → j < i → p (lines.getD j []) = true := by
  intro i
  induction i with
  | zero => intro j _ hj; omega
  | succ n ih =>
    intro j hle hlt
    by_cases hp : p (lines.getD n []) = true
    · rw [extendLeft, if_pos hp] at hle
      rcases Nat.lt_succ_iff_lt_or_eq.mp hlt with h | h
      · exact ih j hle h
      · subst h; exact hp
    · rw [extendLeft, if_neg hp] at hle
      omega

theorem extendLeft_boundary (lines : List (List Char)) (p : List Char → Bool) :
    ∀ i, extendLeft lines p i = 0 ∨
      p (lines.getD (extendLeft lines p i - 1) []) = false := by
  intro i
  induction i with
  | zero => exact Or.inl rfl
  | succ n ih =>
    by_cases hp : p (lines.getD n []) = true
    · rw [extendLeft, if_pos hp]
      exact ih
    · rw [extendLeft, if_neg hp]
      right
      exact Bool.eq_false_iff.mpr hp

theorem extendRightAux_ge (lines : List (List Char)) (p : List Char → Bool) :
    ∀ fuel e, e ≤ extendRightAux lines p fuel e := by
  intro fuel
  induction fuel with
  | zero => intro e; exact le_rfl
  | succ n ih =>
    intro e
    unfold extendRightAux
    split
    · split
      · exact le_trans (Nat.le_succ e) (ih (e + 1))
      · exact le_rfl
    · exact le_rfl

theorem extendRightAux_lt (lines : List (List Char)) (p : List Char → Bool) :
    ∀ fuel e, e < lines.length →
      extendRightAux lines p fuel e < lines.length := by
  intro fuel
  induction fuel with
  | zero => intro e h; exact h
  | succ n ih =>
    intro e h
    unfold extendRightAux
    split
    · split
      · exact ih (e + 1) (by omega)
      · exact h
    · exact h

theorem extendRightAux_holds (lines : List (List Char)) (p : List Char → Bool) :
    ∀ fuel e j, e < j → j ≤ extendRightAux lines p fuel e →
      p (lines.getD j []) = true := by
  intro fuel
  induction fuel with
  | zero => intro e j hj hle; simp only [extendRightAux] at hle; omega
  | succ n ih =>
    intro e j hj hle
    by_cases hlt : e + 1 < lines.length
    · by_cases hp : p (lines.getD (e + 1) []) = true
      · rw [extendRightAux, if_pos hlt, if_pos hp] at hle
        rcases Nat.lt_or_ge (e + 1) j with h | h
        · exact ih (e + 1) j h hle
        · have : j = e + 1 := by omega
          subst this
          exact hp
      · rw [extendRightAux, if_pos hlt, if_neg hp] at hle
        omega
    · rw [extendRightAux, if_neg hlt] at hle
      omega

theorem extendRightAux_boundary (lines : List (List Char))
    (p : List Char → Bool) :
    ∀ fuel e, lines.length ≤ fuel + e + 1 →
      (lines.length ≤ extendRightAux lines p fuel e + 1 ∨
        p (lines.getD (extendRightAux lines p fuel e + 1) []) = false) := by
  intro fuel
  induction fuel with
  | zero =>
    intro e h
    left
    unfold extendRightAux
    omega
  | succ n ih =>
    intro e h
    by_cases hlt : e + 1 < lines.length
    · by_cases hp : p (lines.getD (e + 1) []) = true
      · rw [extendRightAux, if_pos hlt, if_pos hp]
        exact ih (e + 1) (by omega)
      · rw [extendRightAux, if_pos hlt, if_neg hp]
        right
        simpa using Bool.eq_false_iff.mpr hp
    · rw [extendRightAux, if_neg hlt]
      left
      omega

theorem getGroup_run (lines : List (List Char)) (index : Nat)
    (p : List Char → Bool) (h : index < lines.length)
    (hp : p (lines.getD index []) = true) :
    extendLeft lines p index ≤ index ∧
    index ≤ extendRight lines p index ∧
    extendRight lines p index < lines.length ∧
    (∀ j, extendLeft lines p index ≤ j → j ≤ extendRight lines p index →
      p (lines.getD j []) = true) ∧
    (extendLeft lines p index = 0 ∨
      p (lines.getD (extendLeft lines p index - 1) []) = false) ∧
    (extendRight lines p index + 1 = lines.length ∨
      p (lines.getD (extendRight lines p index + 1) []) = false) := by
  unfold extendRight
  have h1 := extendLeft_le lines p index
  have h2 := extendRightAux_ge lines p lines.length index
  have h3 := extendRightAux_lt lines p lines.length index h
  refine ⟨h1, h2, h3, ?_, extendLeft_boundary lines p index, ?_⟩
  · intro j hj1 hj2
    rcases Nat.lt_trichotomy j index with hlt | heq | hgt
    · exact extendLeft_holds lines p index j hj1 hlt
    · subst heq; exact hp
    · exact extendRightAux_holds lines p lines.length index j hgt hj2
  · rcases extendRightAux_boundary lines p lines.length index (by omega)
      with hle | hfalse
    · left; omega
    · right; exact hfalse

theorem getGroupIndices_nil {lines : List (List Char)} {index : Nat}
    (h : index < lines.length) (hnil : lines.getD index [] = []) :
    getGroupIndices lines index = [index] := by
  unfold getGroupIndices
  rw [if_neg (Nat.not_le.mpr h), hnil]

theorem getGroupIndices_cons {lines : List (List Char)} {index : Nat}
    {c : Char} {tail : List Char} (h : index < lines.length)
    (hmatch : lines.getD index [] = c :: tail) :
    getGroupIndices lines index =
      if c = '+' || c = '-' then
        List.range' (extendLeft lines (fun l => leadsWith [c] l) index)
          (extendRight lines (fun l => leadsWith [c] l) index + 1 -
            extendLeft lines (fun l => leadsWith [c] l) index)
      else if c = ' ' || c = '\t' then
        List.range' (extendLeft lines isCtxLine index)
          (extendRight lines isCtxLine index + 1 -
            extendLeft lines isCtxLine index)
      else [index] := by
  unfold getGroupIndices
  rw [if_neg (Nat.not_le.mpr h), hmatch]

theorem leadsWith_length : ∀ {nd z : List Char},
    leadsWith nd z = true → nd.length ≤ z.length := by
  intro nd
  induction nd with
  | nil => intro z _; simp
  | cons a as ih =>
    intro z h
    cases z with
    | nil => simp [leadsWith] at h
    | cons b bs =>
      simp only [leadsWith, Bool.and_eq_true] at h
      simpa using ih h.2

theorem leadsWith_append_iff : ∀ {nd z : List Char}, nd.length ≤ z.length →
    ∀ {b : List Char}, leadsWith nd (z ++ b) = leadsWith nd z := by
  intro nd
  induction nd with
  | nil => intro z _ b; simp [leadsWith]
  | cons a as ih =>
    intro z h b
    cases z with
    | nil => simp at h
    | cons c cs =>
      simp only [List.cons_append, leadsWith]
      have hih := ih (z := cs) (by simpa using h) (b := b)
      rw [show cs.append b = cs ++ b from rfl, hih]

theorem leadsWith_swap : ∀ {z nd b : List Char},
    leadsWith nd (z ++ b) = true → z.length ≤ nd.length →
    leadsWith z nd = true := by
  intro z
  induction z with
  | nil => intro nd b _ _; rfl
  | cons c cs ih =>
    intro nd b h hl
    cases nd with
    | nil => simp at hl
    | cons a as =>
      simp only [List.cons_append, leadsWith, Bool.and_eq_true,
        decide_eq_true_eq] at h ⊢
      obtain ⟨h1, h2⟩ := h
      exact ⟨h1.symm, ih h2 (by simpa using hl)⟩

theorem leadsWith_mem : ∀ {z nd : List Char} {c : Char},
    leadsWith z nd = true → c ∈ z → c ∈ nd := by
  intro z
  induction z with
  | nil => intro nd c _ hc; simp at hc
  | cons a as ih =>
    intro nd c h hc
    cases nd with
    | nil => simp [leadsWith] at h
    | cons b bs =>
      simp only [leadsWith, Bool.and_eq_true, decide_eq_true_eq] at h
      rcases List.mem_cons.mp hc with h' | h'
      · subst h'
        rw [h.1]
        exact List.mem_cons_self _ _
      · exact List.mem_cons_of_mem b (ih h.2 h')

theorem leadsWith_dropped : ∀ {z nd b : List Char},
    leadsWith nd (z ++ b) = true → z.length ≤ nd.length →
    leadsWith (nd.drop z.length) b = true := by
  intro z
  induction z with
  | nil => intro nd b h _; simpa using h
  | cons c cs ih =>
    intro nd b h hl
    cases nd with
    | nil => simp at hl
    | cons a as =>
      simp only [List.cons_append, leadsWith, Bool.and_eq_true] at h
      simpa using ih h.2 (by simpa using hl)

theorem countOcc_append_left {nd : List Char} {ch : Char} (hne : nd ≠ [])
    (hch : ch ∉ nd) : ∀ (a b : List Char),
    countOcc nd ((a ++ [ch]) ++ b) = countOcc nd (a ++ [ch]) + countOcc nd b := by
  intro a
  induction a with
  | nil =>
    intro b
    simp only [List.nil_append, List.singleton_append]
    have h0 : leadsWith nd (ch :: b) = false := by
      cases nd with
      | nil => exact absurd rfl hne
      | cons n1 ns =>
        apply Bool.eq_false_iff.mpr
        intro hcon
        simp only [leadsWith, Bool.and_eq_true, decide_eq_true_eq] at hcon
        cases hcon.1
        exact hch (List.mem_cons_self _ _)
    have h0' : leadsWith nd [ch] = false := by
      cases nd with
      | nil => exact absurd rfl hne
      | cons n1 ns =>
        apply Bool.eq_false_iff.mpr
        intro hcon
        simp only [leadsWith, Bool.and_eq_true, decide_eq_true_eq] at hcon
        cases hcon.1
        exact hch (List.mem_cons_self _ _)
    simp [countOcc, h0, h0']
  | cons x t ih =>
    intro b
    simp only [List.cons_append]
    rw [countOcc, countOcc, ih b]
    have hocc : leadsWith nd (x :: ((t ++ [ch]) ++ b)) =
        leadsWith nd (x :: (t ++ [ch])) := by
      rcases le_or_lt nd.length (x :: (t ++ [ch])).length with hle | hlt
      · rw [show (x :: ((t ++ [ch]) ++ b)) = (x :: (t ++ [ch])) ++ b from
          by simp, leadsWith_append_iff hle]
      · have hr : leadsWith nd (x :: (t ++ [ch])) = false := by
          apply Bool.eq_false_iff.mpr
          intro hcon
          have := leadsWith_length hcon
          omega
        rw [hr]
        apply Bool.eq_false_iff.mpr
        intro hcon
        have hsw : leadsWith (x :: (t ++ [ch])) nd = true := by
          apply leadsWith_swap (b := b) _ (by omega)
          rw [show (x :: (t ++ [ch])) ++ b = x :: ((t ++ [ch]) ++ b) from
            by simp]
          exact hcon
        exact hch (leadsWith_mem hsw (by simp))
    rw [hocc]
    omega

theorem countOcc_append_right {nd : List Char} {ch : Char} (hne : nd ≠ [])
    (hch : ch ∉ nd) : ∀ (a b : List Char),
    countOcc nd (a ++ (ch :: b)) = countOcc nd a + countOcc nd (ch :: b) := by
  intro a
  induction a with
  | nil => intro b; simp [countOcc]
  | cons x t ih =>
    intro b
    simp only [List.cons_append]
    rw [countOcc, countOcc, ih b]
    have hocc : leadsWith nd (x :: (t ++ (ch :: b))) =
        leadsWith nd (x :: t) := by
      rcases le_or_lt nd.length (x :: t).length with hle | hlt
      · rw [show x :: (t ++ (ch :: b)) = (x :: t) ++ (ch :: b) from by simp,
          leadsWith_append_iff hle]
      · have hr : leadsWith nd (x :: t) = false := by
          apply Bool.eq_false_iff.mpr
          intro hcon
          have := leadsWith_length hcon
          omega
        rw [hr]
        apply Bool.eq_false_iff.mpr
        intro hcon
        have hdrop : leadsWith (nd.drop (x :: t).length) (ch :: b) = true := by
          apply leadsWith_dropped _ (by omega)
          rw [show (x :: t) ++ (ch :: b) = x :: (t ++ (ch :: b)) from by simp]
          exact hcon
        cases hd : nd.drop (x :: t).length with
        | nil =>
          have hlen := congrArg List.length hd
          simp only [List.length_drop, List.length_nil, List.length_cons]
            at hlen hlt
          omega
        | cons d ds =>
          rw [hd] at hdrop
          simp only [leadsWith, Bool.and_eq_true, decide_eq_true_eq] at hdrop
          apply hch
          rw [← hdrop.1]
          apply List.drop_subset (x :: t).length
          rw [hd]
          exact List.mem_cons_self _ _
    rw [hocc]
    omega

theorem countOcc_SEP_left (a b : List Char) :
    countOcc SEP ((a ++ ['\n']) ++ b) =
      countOcc SEP (a ++ ['\n']) + countOcc SEP b :=
  countOcc_append_left (by decide) (by decide) a b

theorem countOcc_SEP_right (a b : List Char) :
    countOcc SEP (a ++ ('\n' :: b)) =
      countOcc SEP a + countOcc SEP ('\n' :: b) :=
  countOcc_append_right (by decide) (by decide) a b

theorem countOcc_SEP_cons_nl (Y : List Char) :
    countOcc SEP ('\n' :: Y) = countOcc SEP Y := by
  rw [countOcc, show leadsWith SEP ('\n' :: Y) = false from rfl]
  simp

theorem countOcc_SEP_cons_hash (Y : List Char) :
    countOcc SEP ('#' :: Y) = countOcc SEP Y := by
  rw [countOcc, show leadsWith SEP ('#' :: Y) = false from rfl]
  simp

theorem countOcc_SEP_cons_space (Y : List Char) :
    countOcc SEP (' ' :: Y) = countOcc SEP Y := by
  rw [countOcc, show leadsWith SEP (' ' :: Y) = false from rfl]
  simp

theorem countOcc_SEP_sepBlock (J : List Char) :
    countOcc SEP (sepBlock ++ J) = 1 + countOcc SEP J := by
  rw [show (sepBlock : List Char) = "=====\n".toList ++ ['\n'] from by decide,
    countOcc_SEP_left,
    show countOcc SEP ("=====\n".toList ++ ['\n']) = 1 from by decide]

theorem countOcc_joinSep : ∀ (R : List (List Char)),
    (∀ r ∈ R, countOcc SEP r = 0 ∧ ∃ r', r = r' ++ ['\n']) →
    countOcc SEP (joinSep sepBlock R) = R.length - 1 := by
  intro R
  induction R with
  | nil => intro _; rfl
  | cons r rest ih =>
    intro hR
    cases rest with
    | nil =>
      simpa [joinSep] using (hR r (by simp)).1
    | cons r' rest' =>
      obtain ⟨hr0, rr, hrr⟩ := hR r (by simp)
      have hrest : ∀ s ∈ r' :: rest',
          countOcc SEP s = 0 ∧ ∃ s', s = s' ++ ['\n'] :=
        fun s hs => hR s (by simp [hs])
      show countOcc SEP ((r ++ sepBlock) ++ joinSep sepBlock (r' :: rest')) = _
      rw [List.append_assoc, hrr, countOcc_SEP_left]
      rw [hrr] at hr0
      rw [hr0, countOcc_SEP_sepBlock, ih hrest]
      simp only [List.length_cons]
      omega

theorem countOcc_SEP_md_header (Y : List Char) :
    countOcc SEP ("## ".toList ++ Y) = countOcc SEP Y := by
  rw [show ("## ".toList : List Char) ++ Y = '#' :: ('#' :: (' ' :: Y)) from
    rfl, countOcc_SEP_cons_hash, countOcc_SEP_cons_hash,
    countOcc_SEP_cons_space]

theorem ends_nl2 (X : List Char) : ∃ A', X ++ "\n\n".toList = A' ++ ['\n'] :=
  ⟨X ++ ['\n'], (List.append_assoc X ['\n'] ['\n']).symm⟩

theorem countOcc_treeRender {m : Mode} (hm : m = .txt ∨ m = .md)
    {t : List Char} (ht : countOcc SEP t = 0) :
    countOcc SEP (treeRender m t) = 0 := by
  rcases hm with h | h <;> subst h
  · show countOcc SEP
      ("Структура проекта\n\n".toList ++ t ++ "\n\n".toList) = 0
    rw [List.append_assoc,
      show ("Структура проекта\n\n".toList : List Char) =
        "Структура проекта\n".toList ++ ['\n'] from by decide,
      countOcc_SEP_left,
      show countOcc SEP ("Структура проекта\n".toList ++ ['\n']) = 0 from
        by decide,
      show (t ++ "\n\n".toList : List Char) = t ++ ('\n' :: ['\n']) from rfl,
      countOcc_SEP_right, ht,
      show countOcc SEP ('\n' :: ['\n']) = 0 from by decide]
  · show countOcc SEP
      ("# Структура проекта\n\n```\n".toList ++ t ++ "\n```\n\n".toList) = 0
    rw [List.append_assoc,
      show ("# Структура проекта\n\n```\n".toList : List Char) =
        "# Структура проекта\n\n```".toList ++ ['\n'] from by decide,
      countOcc_SEP_left,
      show countOcc SEP ("# Структура проекта\n\n```".toList ++ ['\n']) = 0
        from by decide,
      show (t ++ "\n```\n\n".toList : List Char) =
        t ++ ('\n' :: "```\n\n".toList) from rfl,
      countOcc_SEP_right, ht,
      show countOcc SEP ('\n' :: "```\n\n".toList) = 0 from by decide]

theorem countOcc_sectionRender {m : Mode} (hm : m = .txt ∨ m = .md)
    {sec : List Char × List (List Char)}
    (h1 : countOcc SEP sec.1 = 0) (h2 : countOcc SEP sec.2.flatten = 0) :
    countOcc SEP (sectionRender m sec) = 0 := by
  have hcore : countOcc SEP
      (sec.1 ++ ("\n\n".toList ++ (sec.2.flatten ++ "\n\n".toList))) = 0 := by
    rw [show ("\n\n".toList : List Char) ++
          (sec.2.flatten ++ "\n\n".toList) =
        '\n' :: ('\n' :: (sec.2.flatten ++ "\n\n".toList)) from rfl,
      countOcc_SEP_right, h1, countOcc_SEP_cons_nl, countOcc_SEP_cons_nl,
      show (sec.2.flatten ++ "\n\n".toList : List Char) =
        sec.2.flatten ++ ('\n' :: ['\n']) from rfl,
      countOcc_SEP_right, h2,
      show countOcc SEP ('\n' :: ['\n']) = 0 from by decide]
  rcases hm with h | h <;> subst h
  · show countOcc SEP
      ((sec.1 ++ "\n\n".toList) ++ sec.2.flatten ++ "\n\n".toList) = 0
    rw [List.append_assoc, List.append_assoc]
    exact hcore
  · show countOcc SEP
      (("## ".toList ++ sec.1 ++ "\n\n".toList) ++ sec.2.flatten ++
        "\n\n".toList) = 0
    rw [List.append_assoc, List.append_assoc, List.append_assoc,
      countOcc_SEP_md_header]
    exact hcore

theorem sectionRender_ends_nl (m : Mode) (sec : List Char × List (List Char)) :
    ∃ A', sectionRender m sec = A' ++ ['\n'] :=
  ends_nl2 (headerRender m sec.1 ++ sec.2.flatten)

theorem setTree_buf {b : DumpBuilderState}
    (hm : b.mode = .txt ∨ b.mode = .md) (t : List Char) :
    (b.setTree t).buf = b.buf ++ treeRender b.mode t ∧
      (b.setTree t).mode = b.mode := by
  obtain ⟨m, buf, jt, jf⟩ := b
  rcases hm with h | h <;> (simp only at h; subst h) <;>
    simp [DumpBuilderState.setTree, treeRender, List.append_assoc]

theorem startFile_buf {b : DumpBuilderState}
    (hm : b.mode = .txt ∨ b.mode = .md) (p : List Char) :
    (b.startFile p).buf = b.buf ++ headerRender b.mode p ∧
      (b.startFile p).mode = b.mode := by
  obtain ⟨m, buf, jt, jf⟩ := b
  rcases hm with h | h <;> (simp only at h; subst h) <;>
    simp [DumpBuilderState.startFile, headerRender, List.append_assoc]

theorem addChunk_buf {b : DumpBuilderState}
    (hm : b.mode = .txt ∨ b.mode = .md) (s : List Char) :
    (b.addChunk s).buf = b.buf ++ s ∧ (b.addChunk s).mode = b.mode := by
  obtain ⟨m, buf, jt, jf⟩ := b
  rcases hm with h | h <;> (simp only at h; subst h) <;>
    simp [DumpBuilderState.addChunk]

theorem endFile_buf {b : DumpBuilderState}
    (hm : b.mode = .txt ∨ b.mode = .md) (last : Bool) :
    (b.endFile last).buf =
      b.buf ++ ("\n\n".toList ++ (if last then [] else sepBlock)) ∧
      (b.endFile last).mode = b.mode := by
  obtain ⟨m, buf, jt, jf⟩ := b
  rcases hm with h | h <;> (simp only at h; subst h) <;>
    simp [DumpBuilderState.endFile, sepBlock, SEP, List.append_assoc]

theorem addChunks_buf : ∀ (chunks : List (List Char)) (b : DumpBuilderState),
    (b.mode = .txt ∨ b.mode = .md) →
    (chunks.foldl DumpBuilderState.addChunk b).buf = b.buf ++ chunks.flatten ∧
    (chunks.foldl DumpBuilderState.addChunk b).mode = b.mode := by
  intro chunks
  induction chunks with
  | nil => intro b _; simp
  | cons c cs ih =>
    intro b hm
    obtain ⟨ha, hamode⟩ := addChunk_buf hm c
    obtain ⟨h1, h2⟩ := ih (b.addChunk c) (by rw [hamode]; exact hm)
    rw [List.foldl_cons]
    refine ⟨?_, by rw [h2, hamode]⟩
    rw [h1, ha, List.flatten_cons, List.append_assoc]

theorem runSection_buf {b : DumpBuilderState}
    (hm : b.mode = .txt ∨ b.mode = .md)
    (sec : List Char × List (List Char)) (last : Bool) :
    (runSection b sec last).buf =
      b.buf ++ (sectionRender b.mode sec ++ (if last then [] else sepBlock)) ∧
      (runSection b sec last).mode = b.mode := by
  unfold runSection
  obtain ⟨h1, h2⟩ := startFile_buf hm sec.1
  obtain ⟨h3, h4⟩ := addChunks_buf sec.2 (b.startFile sec.1)
    (by rw [h2]; exact hm)
  obtain ⟨h5, h6⟩ := endFile_buf (b := sec.2.foldl DumpBuilderState.addChunk
    (b.startFile sec.1)) (by rw [h4, h2]; exact hm) last
  refine ⟨?_, by rw [h6, h4, h2]⟩
  rw [h5, h3, h1]
  simp [sectionRender, List.append_assoc]

theorem runSections_buf : ∀ (sections : List (List Char × List (List Char)))
    (b : DumpBuilderState), (b.mode = .txt ∨ b.mode = .md) →
    (runSections b sections).buf =
      b.buf ++ joinSep sepBlock (sections.map (sectionRender b.mode)) ∧
    (runSections b sections).mode = b.mode := by
  intro sections
  induction sections with
  | nil => intro b _; simp [runSections, joinSep]
  | cons sec rest ih =>
    intro b hm
    cases rest with
    | nil =>
      obtain ⟨hb, hmode⟩ := runSection_buf hm sec true
      refine ⟨?_, ?_⟩
      · rw [show runSections b [sec] = runSection b sec true from rfl, hb]
        simp [joinSep]
      · rw [show runSections b [sec] = runSection b sec true from rfl, hmode]
    | cons sec' rest' =>
      obtain ⟨hb, hmode⟩ := runSection_buf hm sec false
      obtain ⟨ih1, ih2⟩ := ih (runSection b sec false)
        (by rw [hmode]; exact hm)
      have hdef : runSections b (sec :: sec' :: rest') =
          runSections (runSection b sec false) (sec' :: rest') := rfl
      refine ⟨?_, by rw [hdef, ih2, hmode]⟩
      rw [hdef, ih1, hb, hmode]
      simp [joinSep, List.append_assoc]

theorem build_text {b : DumpBuilderState}
    (hm : b.mode = .txt ∨ b.mode = .md) : b.build = .text b.buf := by
  obtain ⟨bm, buf, jt, jf⟩ := b
  rcases hm with h | h <;> (simp only at h; subst h) <;> rfl

theorem treeRender_ends_nl (m : Mode) (t : List Char) :
    ∃ A', treeRender m t = A' ++ ['\n'] := by
  cases m with
  | md =>
    refine ⟨("# Структура проекта\n\n```\n".toList ++ t) ++ "\n```\n".toList,
      ?_⟩
    show ("# Структура проекта\n\n```\n".toList ++ t) ++ "\n```\n\n".toList = _
    rw [show ("\n```\n\n".toList : List Char) =
      "\n```\n".toList ++ ['\n'] from by decide, ← List.append_assoc]
  | txt => exact ends_nl2 _
  | json => exact ends_nl2 _

theorem runFiles_no_error (inc : Bool) :
    ∀ (i : Nat) (fs : List FileSpec),
      (∀ f ∈ fs, f.collapsed = false → f.readError = none) →
      runFiles inc i fs = specFilesEvents inc i fs ++ [.done] := by
  intro i fs
  induction fs generalizing i with
  | nil => intro _; rfl
  | cons f rest ih =>
    intro h
    have hrest : ∀ g ∈ rest, g.collapsed = false → g.readError = none :=
      fun g hg => h g (List.mem_cons_of_mem f hg)
    by_cases hcol : f.collapsed = true
    · by_cases hinc : inc = true
      · subst hinc
        have hcond : (f.collapsed && !true) = false := by simp
        simp [runFiles, specFilesEvents, specFileEvents, hcond, hcol,
          ih (i + 1) hrest]
      · have hinc' : inc = false := by simpa using hinc
        subst hinc'
        have hcond : (f.collapsed && !false) = true := by simp [hcol]
        simp [runFiles, specFilesEvents, specFileEvents, hcond, hcol,
          ih (i + 1) hrest]
    · have hcol' : f.collapsed = false := by simpa using hcol
      have herr : f.readError = none := h f (List.mem_cons_self f rest) hcol'
      have hcond : (f.collapsed && !inc) = false := by simp [hcol']
      simp [runFiles, specFilesEvents, specFileEvents, hcond, hcol', herr,
        ih (i + 1) hrest]

theorem runFiles_terminal (inc : Bool) :
    ∀ (i : Nat) (fs : List FileSpec),
      ∃ pre t, runFiles inc i fs = pre ++ [t] ∧ isTerminal t = true ∧
        ∀ e ∈ pre, isTerminal e = false := by
  intro i fs
  induction fs generalizing i with
  | nil => exact ⟨[], .done, rfl, rfl, by simp⟩
  | cons f rest ih =>
    by_cases hcol : f.collapsed = true
    · by_cases hinc : inc = true
      · subst hinc
        have hcond : (f.collapsed && !true) = false := by simp
        obtain ⟨pre, t, heq, ht, hpre⟩ := ih (i + 1)
        refine ⟨.fileHeader f.rel :: .fileSkipped hiddenMsg :: .fileSep ::
          .progress i :: pre, t, ?_, ht, ?_⟩
        · simp [runFiles, hcond, hcol, heq]
        · intro e he
          rcases List.mem_cons.mp he with h | h
          · subst h; rfl
          rcases List.mem_cons.mp h with h | h
          · subst h; rfl
          rcases List.mem_cons.mp h with h | h
          · subst h; rfl
          rcases List.mem_cons.mp h with h | h
          · subst h; rfl
          · exact hpre e h
      · have hinc' : inc = false := by simpa using hinc
        subst hinc'
        have hcond : (f.collapsed && !false) = true := by simp [hcol]
        obtain ⟨pre, t, heq, ht, hpre⟩ := ih (i + 1)
        refine ⟨.progress i :: pre, t, ?_, ht, ?_⟩
        · simp [runFiles, hcond, hcol, heq]
        · intro e he
          rcases List.mem_cons.mp he with h | h
          · subst h; rfl
          · exact hpre e h
    · have hcol' : f.collapsed = false := by simpa using hcol
      have hcond : (f.collapsed && !inc) = false := by simp [hcol']
      have hchunks : ∀ e ∈ f.chunks.map Event.fileChunk,
          isTerminal e = false := by
        intro e he
        obtain ⟨c, _, hc⟩ := List.mem_map.mp he
        rw [← hc]; rfl
      cases herr : f.readError with
      | none =>
        obtain ⟨pre, t, heq, ht, hpre⟩ := ih (i + 1)
        refine ⟨.fileHeader f.rel :: (f.chunks.map .fileChunk ++
          .fileSep :: .progress i :: pre), t, ?_, ht, ?_⟩
        · simp [runFiles, hcond, hcol', herr, heq]
        · intro e he
          rcases List.mem_cons.mp he with h | h
          · subst h; rfl
          rcases List.mem_append.mp h with h | h
          · exact hchunks e h
          rcases List.mem_cons.mp h with h | h
          · subst h; rfl
          rcases List.mem_cons.mp h with h | h
          · subst h; rfl
          · exact hpre e h
      | some msg =>
        refine ⟨.fileHeader f.rel :: f.chunks.map .fileChunk, .error msg,
          ?_, rfl, ?_⟩
        · simp [runFiles, hcond, hcol', herr]
        · intro e he
          rcases List.mem_cons.mp he with h | h
          · subst h; rfl
          · exact hchunks e h

theorem classifyLine_in_range (lines : List (List Char)) (index : Nat)
    (S : Finset Nat) (h : index < lines.length) (hS : index ∉ S) :
    classifyLine lines index S =
      (if isEmptyHunkHeader (lines.getD index []) then .headerHunkEmpty
       else if (findHunkHeaderPrefix (lines.getD index [])).isSome then
         .headerHunk
       else if leadsWith ['+'] (lines.getD index []) then .plus
       else if leadsWith ['-'] (lines.getD index []) then .minus
       else .other) := by
  simp [classifyLine, Nat.not_le.mpr h, hS]

/-!
## Claim theorems
-/

/-- C7: for every byte string `b` and threshold `t`, `is_binary_sample(b, t)`
is true iff `b` contains a NUL byte, or the fraction of bytes of `b` outside
the text set {BEL,BS,TAB,LF,FF,CR,ESC} ∪ [0x20,0xFF] strictly exceeds `t`;
for empty `b` the result is false for every `t`. -/
theorem c7_is_binary_sample_iff :
    ∀ (b : List Nat) (t : ℚ),
      (isBinarySample b t = true ↔
        0 ∈ b ∨ (b ≠ [] ∧ (countNonText b : ℚ) / (b.length : ℚ) > t))
      ∧ isBinarySample [] t = false := by
  intro b t
  refine ⟨?_, by simp [isBinarySample]⟩
  by_cases h0 : 0 ∈ b
  · simp [isBinarySample, h0]
  · by_cases hb : b = []
    · subst hb; simp at h0; simp [isBinarySample, h0]
    · simp [isBinarySample, h0, hb]

/-- C3: `classify_line` returns `HeaderDiffBlock` whenever the index is in
the diff-block set, regardless of the line's content; otherwise
`HeaderHunkEmpty` for an empty hunk header, `HeaderHunk` when a hunk-header
prefix starts at position 0, `Plus` when the first character is `+`, `Minus`
when it is `-`, and `Other` otherwise; any out-of-range index yields
`Other`. -/
theorem c3_classify_line_priority :
    ∀ (lines : List (List Char)) (index : Nat) (S : Finset Nat),
      (lines.length ≤ index → classifyLine lines index S = .other)
      ∧ (index < lines.length → index ∈ S →
          classifyLine lines index S = .headerDiff)
      ∧ (index < lines.length → index ∉ S →
          (isEmptyHunkHeader (lines.getD index []) = true →
            classifyLine lines index S = .headerHunkEmpty)
          ∧ (isEmptyHunkHeader (lines.getD index []) = false →
              (findHunkHeaderPrefix (lines.getD index [])).isSome = true →
              classifyLine lines index S = .headerHunk)
          ∧ (isEmptyHunkHeader (lines.getD index []) = false →
              findHunkHeaderPrefix (lines.getD index []) = none →
              (lines.getD index []).head? = some '+' →
              classifyLine lines index S = .plus)
          ∧ (isEmptyHunkHeader (lines.getD index []) = false →
              findHunkHeaderPrefix (lines.getD index []) = none →
              (lines.getD index []).head? = some '-' →
              classifyLine lines index S = .minus)
          ∧ (isEmptyHunkHeader (lines.getD index []) = false →
              findHunkHeaderPrefix (lines.getD index []) = none →
              (lines.getD index []).head? ≠ some '+' →
              (lines.getD index []).head? ≠ some '-' →
              classifyLine lines index S = .other)) := by
  intro lines index S
  refine ⟨fun h => by simp [classifyLine, h], fun h hS => ?_, fun h hS => ?_⟩
  · simp [classifyLine, Nat.not_le.mpr h, hS]
  · rw [classifyLine_in_range lines index S h hS]
    refine ⟨fun he => by rw [if_pos he], ?_, ?_, ?_, ?_⟩
    · intro he hp
      rw [if_neg (by rw [he]; simp), if_pos hp]
    · intro he hp hplus
      rw [if_neg (by rw [he]; simp), if_neg (by rw [hp]; simp),
        if_pos (leadsWith_singleton.mpr hplus)]
    · intro he hp hminus
      have h1 : ¬ leadsWith ['+'] (lines.getD index []) = true := by
        intro hc
        rw [leadsWith_singleton.mp hc] at hminus
        simp at hminus
      rw [if_neg (by rw [he]; simp), if_neg (by rw [hp]; simp), if_neg h1,
        if_pos (leadsWith_singleton.mpr hminus)]
    · intro he hp hplus hminus
      have h1 : ¬ leadsWith ['+'] (lines.getD index []) = true := fun hc =>
        absurd (leadsWith_singleton.mp hc) hplus
      have h2 : ¬ leadsWith ['-'] (lines.getD index []) = true := fun hc =>
        absurd (leadsWith_singleton.mp hc) hminus
      rw [if_neg (by rw [he]; simp), if_neg (by rw [hp]; simp), if_neg h1, if_neg h2]

/-- C3 witness: the theorem applied at a concrete in-block line. -/
theorem c3_classify_line_priority_witness :
    classifyLine ["+a".toList] 0 {0} = .headerDiff :=
  (c3_classify_line_priority ["+a".toList] 0 {0}).2.1 (by decide) (by decide)

/-- C4: `strip_for_copy` returns the empty string for an empty hunk header;
otherwise, when the first character is neither `+` nor `-` and a hunk-header
prefix starts at position 0, it removes that prefix and then unconditionally
drops the first character of what remains (when no prefix applies, it just
drops the first character); empty input yields empty output; and the eight
concrete examples of the claim hold. -/
theorem c4_strip_for_copy :
    (∀ line : List Char, isEmptyHunkHeader line = true → stripForCopy line = [])
    ∧ (∀ (line : List Char) (stop : Nat), isEmptyHunkHeader line = false →
        line.head? ≠ some '+' → line.head? ≠ some '-' →
        findHunkHeaderPrefix line = some stop →
        stripForCopy line = (line.drop stop).drop 1)
    ∧ (∀ line : List Char, isEmptyHunkHeader line = false →
        line.head? ≠ some '+' → line.head? ≠ some '-' →
        findHunkHeaderPrefix line = none →
        stripForCopy line = line.drop 1)
    ∧ (∀ (line : List Char) (c : Char), isEmptyHunkHeader line = false →
        line.head? = some c → (c = '+' ∨ c = '-') →
        stripForCopy line = line.drop 1)
    ∧ stripForCopy [] = []
    ∧ stripForCopy "+abc".toList = "abc".toList
    ∧ stripForCopy "-xyz".toList = "xyz".toList
    ∧ stripForCopy "@@ -1,3 +1,4 @@ foo".toList = "foo".toList
    ∧ stripForCopy "   @@ -1,3 +1,4 @@ bar".toList = "bar".toList
    ∧ stripForCopy "+@@ -1,3 +1,4 @@ foo".toList = "@@ -1,3 +1,4 @@ foo".toList
    ∧ stripForCopy "@@".toList = []
    ∧ stripForCopy "@@    @@".toList = []
    ∧ stripForCopy "".toList = [] := by
  refine ⟨?_, ?_, ?_, ?_, by decide, by decide, by decide, by decide,
    by decide, by decide, by decide, by decide, by decide⟩
  · intro line he
    simp [stripForCopy, he]
  · intro line stop he hplus hminus hp
    cases line with
    | nil => simp [findHunkHeaderPrefix, leadsWith] at hp
    | cons c t =>
      simp only [List.head?_cons, ne_eq, Option.some.injEq] at hplus hminus
      have hc : (c = '+' || c = '-') = false := by
        simp [hplus, hminus]
      simp [stripForCopy, he, hc, hp]
  · intro line he hplus hminus hp
    cases line with
    | nil => simp [stripForCopy, he]
    | cons c t =>
      simp only [List.head?_cons, ne_eq, Option.some.injEq] at hplus hminus
      have hc : (c = '+' || c = '-') = false := by
        simp [hplus, hminus]
      simp [stripForCopy, he, hc, hp]
  · intro line c he hhead hc
    cases line with
    | nil => simp at hhead
    | cons a t =>
      simp only [List.head?_cons, Option.some.injEq] at hhead
      subst hhead
      have hc' : (a = '+' || a = '-') = true := by
        rcases hc with h | h <;> simp [h]
      simp [stripForCopy, he, hc']

/-- C4 witness: the theorem applied to a concrete line carrying a
hunk-header prefix. -/
theorem c4_strip_for_copy_witness :
    stripForCopy " @@a@@xy".toList = (" @@a@@xy".toList.drop 6).drop 1 :=
  c4_strip_for_copy.2.1 " @@a@@xy".toList 6 (by decide) (by decide)
    (by decide) (by decide)

/-- C5: `get_group_indices` returns `[]` for an out-of-range index;
`[index]` for an empty line; the maximal contiguous run of neighbors
starting with the identical sign character for `+`/`-` (so `+` runs never
merge with `-` runs); the maximal contiguous run of non-empty neighbors
whose first character is a space or tab for a whitespace-led line; and the
singleton `[index]` for any other first character. -/
theorem c5_get_group_indices :
    ∀ (lines : List (List Char)) (index : Nat),
      (lines.length ≤ index → getGroupIndices lines index = [])
      ∧ (index < lines.length → lines.getD index [] = [] →
          getGroupIndices lines index = [index])
      ∧ (∀ c : Char, index < lines.length →
          (lines.getD index []).head? = some c → (c = '+' ∨ c = '-') →
          ∃ s e, s ≤ index ∧ index ≤ e ∧ e < lines.length ∧
            getGroupIndices lines index = List.range' s (e + 1 - s) ∧
            (∀ j, s ≤ j → j ≤ e → (lines.getD j []).head? = some c) ∧
            (s = 0 ∨ ¬ (lines.getD (s - 1) []).head? = some c) ∧
            (e + 1 = lines.length ∨ ¬ (lines.getD (e + 1) []).head? = some c))
      ∧ (∀ c : Char, index < lines.length →
          (lines.getD index []).head? = some c → (c = ' ' ∨ c = '\t') →
          ∃ s e, s ≤ index ∧ index ≤ e ∧ e < lines.length ∧
            getGroupIndices lines index = List.range' s (e + 1 - s) ∧
            (∀ j, s ≤ j → j ≤ e →
              ∃ d, (lines.getD j []).head? = some d ∧ (d = ' ' ∨ d = '\t')) ∧
            (s = 0 ∨ ¬ ∃ d, (lines.getD (s - 1) []).head? = some d ∧
              (d = ' ' ∨ d = '\t')) ∧
            (e + 1 = lines.length ∨ ¬ ∃ d, (lines.getD (e + 1) []).head? =
              some d ∧ (d = ' ' ∨ d = '\t')))
      ∧ (∀ c : Char, index < lines.length →
          (lines.getD index []).head? = some c →
          c ≠ '+' → c ≠ '-' → c ≠ ' ' → c ≠ '\t' →
          getGroupIndices lines index = [index]) := by
  intro lines index
  have hcons : ∀ c : Char, (lines.getD index []).head? = some c →
      ∃ tail, lines.getD index [] = c :: tail := by
    intro c hhead
    cases hgd : lines.getD index [] with
    | nil => rw [hgd] at hhead; simp at hhead
    | cons a t =>
      rw [hgd] at hhead
      simp only [List.head?_cons, Option.some.injEq] at hhead
      exact ⟨t, by rw [hhead]⟩
  refine ⟨fun h => by simp [getGroupIndices, h], ?_, ?_, ?_, ?_⟩
  · intro h hnil
    exact getGroupIndices_nil h hnil
  · intro c h hhead hc
    obtain ⟨tail, hmatch⟩ := hcons c hhead
    have hp : leadsWith [c] (lines.getD index []) = true :=
      leadsWith_singleton.mpr hhead
    obtain ⟨hs, he, hel, hall, hbl, hbr⟩ :=
      getGroup_run lines index (fun l => leadsWith [c] l) h hp
    refine ⟨extendLeft lines (fun l => leadsWith [c] l) index,
      extendRight lines (fun l => leadsWith [c] l) index,
      hs, he, hel, ?_, ?_, ?_, ?_⟩
    · have hc' : (c = '+' || c = '-') = true := by
        rcases hc with h' | h' <;> simp [h']
      rw [getGroupIndices_cons h hmatch, if_pos hc']
    · intro j hj1 hj2
      exact leadsWith_singleton.mp (hall j hj1 hj2)
    · rcases hbl with h0 | hfalse
      · exact Or.inl h0
      · right
        intro hcon
        have := leadsWith_singleton.mpr hcon
        rw [this] at hfalse
        simp at hfalse
    · rcases hbr with h0 | hfalse
      · exact Or.inl h0
      · right
        intro hcon
        have := leadsWith_singleton.mpr hcon
        rw [this] at hfalse
        simp at hfalse
  · intro c h hhead hc
    obtain ⟨tail, hmatch⟩ := hcons c hhead
    have hp : isCtxLine (lines.getD index []) = true :=
      isCtxLine_head.mpr ⟨c, hhead, hc⟩
    have hc1 : ¬ ((c = '+' || c = '-') = true) := by
      rcases hc with h' | h' <;> subst h' <;> decide
    obtain ⟨hs, he, hel, hall, hbl, hbr⟩ :=
      getGroup_run lines index isCtxLine h hp
    refine ⟨extendLeft lines isCtxLine index,
      extendRight lines isCtxLine index, hs, he, hel, ?_, ?_, ?_, ?_⟩
    · have hc2' : (c = ' ' || c = '\t') = true := by
        rcases hc with h' | h' <;> simp [h']
      rw [getGroupIndices_cons h hmatch, if_neg hc1, if_pos hc2']
    · intro j hj1 hj2
      exact isCtxLine_head.mp (hall j hj1 hj2)
    · rcases hbl with h0 | hfalse
      · exact Or.inl h0
      · right
        intro hcon
        have := isCtxLine_head.mpr hcon
        rw [this] at hfalse
        simp at hfalse
    · rcases hbr with h0 | hfalse
      · exact Or.inl h0
      · right
        intro hcon
        have := isCtxLine_head.mpr hcon
        rw [this] at hfalse
        simp at hfalse
  · intro c h hhead h1 h2 h3 h4
    obtain ⟨tail, hmatch⟩ := hcons c hhead
    have hc1 : ¬ ((c = '+' || c = '-') = true) := by
      simp [h1, h2]
    have hc2 : ¬ ((c = ' ' || c = '\t') = true) := by
      simp [h3, h4]
    rw [getGroupIndices_cons h hmatch, if_neg hc1, if_neg hc2]

/-- C5 witness: the theorem's sign-run branch applied to the click at index
3 of the spec's example. -/
theorem c5_get_group_indices_witness :
    ∃ s e, s ≤ 3 ∧ 3 ≤ e ∧
      e < (["-a".toList, "-b".toList, " c".toList, "+d".toList, "+e".toList,
        "-f".toList] : List (List Char)).length ∧
      getGroupIndices ["-a".toList, "-b".toList, " c".toList, "+d".toList,
        "+e".toList, "-f".toList] 3 = List.range' s (e + 1 - s) ∧
      (∀ j, s ≤ j → j ≤ e →
        ((["-a".toList, "-b".toList, " c".toList, "+d".toList, "+e".toList,
          "-f".toList] : List (List Char)).getD j []).head? = some '+') ∧
      (s = 0 ∨ ¬ ((["-a".toList, "-b".toList, " c".toList, "+d".toList,
        "+e".toList, "-f".toList] : List (List Char)).getD (s - 1) []).head?
          = some '+') ∧
      (e + 1 = (["-a".toList, "-b".toList, " c".toList, "+d".toList,
        "+e".toList, "-f".toList] : List (List Char)).length ∨
        ¬ ((["-a".toList, "-b".toList, " c".toList, "+d".toList, "+e".toList,
          "-f".toList] : List (List Char)).getD (e + 1) []).head? = some '+') :=
  (c5_get_group_indices ["-a".toList, "-b".toList, " c".toList, "+d".toList,
    "+e".toList, "-f".toList] 3).2.2.1 '+' (by decide) (by decide)
    (Or.inl rfl)

/-- C6: `detect_diff_block_indices` marks the index of every line that,
after stripping leading whitespace, starts with the token `diff`, and also
marks up to the next three existing indices regardless of content; for the
8-line example of the spec, both {0,1,2,3} and {5,6,7} are fully contained
in the result. -/
theorem c6_detect_diff_block_indices :
    (∀ (lines : List (List Char)) (i k : Nat),
      isDiffHeaderLine (lines.getD i []) = true → i < lines.length →
      k ≤ 3 → i + k < lines.length →
      i + k ∈ detectDiffBlockIndices lines)
    ∧ (({0, 1, 2, 3} : Finset Nat) ⊆ detectDiffBlockIndices
        ["diff --git a/x b/x".toList, [], "   ".toList, [], "+line".toList,
         "diff something".toList, "not-empty".toList, []]
      ∧ ({5, 6, 7} : Finset Nat) ⊆ detectDiffBlockIndices
        ["diff --git a/x b/x".toList, [], "   ".toList, [], "+line".toList,
         "diff something".toList, "not-empty".toList, []]) := by
  refine ⟨?_, by decide, by decide⟩
  intro lines i k hhdr hi hk hik
  unfold detectDiffBlockIndices
  apply foldl_detectStep_mem (List.range lines.length) ∅
    (List.mem_range.mpr hi) hhdr
  unfold diffBlockAt
  interval_cases k
  · exact Finset.mem_insert_self _ _
  · exact Finset.mem_insert_of_mem (Finset.mem_filter.mpr
      ⟨by simp, hik⟩)
  · exact Finset.mem_insert_of_mem (Finset.mem_filter.mpr
      ⟨by simp, hik⟩)
  · exact Finset.mem_insert_of_mem (Finset.mem_filter.mpr
      ⟨by simp, hik⟩)

/-- C6 witness: the theorem applied to the second `diff` header of the
spec example, at offset 2. -/
theorem c6_detect_diff_block_indices_witness :
    (7 : Nat) ∈ detectDiffBlockIndices
      ["diff --git a/x b/x".toList, [], "   ".toList, [], "+line".toList,
       "diff something".toList, "not-empty".toList, []] :=
  c6_detect_diff_block_indices.1
    ["diff --git a/x b/x".toList, [], "   ".toList, [], "+line".toList,
     "diff something".toList, "not-empty".toList, []]
    5 2 (by decide) (by decide) (by decide) (by decide)

/-- C1: evaluation of the `build` pattern compilation at the failing input.
A `.gitignore` in subdirectory `sub` containing the rooted pattern `/foo`
compiles to `foo` — the leading slash is stripped but the containing
directory's prefix is NOT prepended — whereas the claim (and standard
gitignore semantics, which the unrooted branch follows) requires the rule
rooted at the containing directory, i.e. `sub/foo`. -/
theorem c1_rooted_pattern_not_rebased :
    compileLine "sub".toList "/foo".toList = some "foo".toList
    ∧ specCompileRooted "sub".toList "/foo".toList = "sub/foo".toList
    ∧ compileLine "sub".toList "/foo".toList ≠
        some (specCompileRooted "sub".toList "/foo".toList)
    ∧ compileLine "sub".toList "foo".toList = some "sub/foo".toList := by
  refine ⟨by decide, by decide, by decide, by decide⟩

/-- C10: for every path that is not under the cache's root, `ignored` with a
compiled matcher active raises (pathlib's `relative_to` fails); it returns
`False` without error when no matcher is active. -/
theorem c10_ignored_outside_root :
    ∀ (avail : Bool) (c : GitignoreCacheState) (p : List String) (d : Bool)
      (root : List String) (spec : String → Bool),
      (c.root = some root → c.spec = some spec → avail = true →
        root.isPrefixOf p = false → ignoredLookup avail c p d = .error ())
      ∧ ((avail = false ∨ c.root = none ∨ c.spec = none) →
          ignoredLookup avail c p d = .ok false) := by
  intro avail c p d root spec
  obtain ⟨cr, cs⟩ := c
  constructor
  · intro hr hs ha hpre
    simp only at hr hs
    subst hr hs ha
    simp [ignoredLookup, hpre]
  · intro h
    rcases h with h | h | h
    · subst h
      cases cr <;> cases cs <;> rfl
    · simp only at h
      subst h
      cases avail <;> cases cs <;> rfl
    · simp only at h
      subst h
      cases avail <;> cases cr <;> rfl

/-- C10 witness: a concrete cache with an active matcher and a path outside
the root raises; a cache without a matcher returns `False`. -/
theorem c10_ignored_outside_root_witness :
    ignoredLookup true ⟨some ["r"], some (fun _ => true)⟩ ["x", "f"] false
        = .error ()
    ∧ ignoredLookup true ⟨some ["r"], none⟩ ["x", "f"] false = .ok false :=
  ⟨(c10_ignored_outside_root true ⟨some ["r"], some (fun _ => true)⟩
      ["x", "f"] false ["r"] (fun _ => true)).1 rfl rfl rfl rfl,
   (c10_ignored_outside_root true ⟨some ["r"], none⟩
      ["x", "f"] false ["r"] (fun _ => true)).2 (Or.inr (Or.inr rfl))⟩

/-- C2 (amended): when the first-chunk decode fails under the configured
encoding and error policy, and detection is disabled, unavailable or
inconclusive, `read_text_streaming` falls back to decoding that same chunk
with the same configured encoding and error policy; that fallback cannot
raise when the error policy is `replace` or `ignore`, but under `strict` it
deterministically raises the same decode error, which escapes to the
caller. -/
theorem c2_first_chunk_fallback :
    (∀ (cfg : ReaderConfig) (avail : Bool)
      (detection : Option (Codec × List Nat)) (data : List Nat),
      decodeBytes cfg.encoding cfg.errorsPolicy data = .error () →
      (cfg.detectEncoding = false ∨ avail = false ∨ detection = none) →
      firstChunkDecode cfg avail detection data = .error ())
    ∧ (∀ (cfg : ReaderConfig) (data : List Nat),
        cfg.errorsPolicy ≠ .strict →
        ∃ out, decodeBytes cfg.encoding cfg.errorsPolicy data = .ok out)
    ∧ (∀ (cfg : ReaderConfig) (avail : Bool)
        (detection : Option (Codec × List Nat)) (data : List Nat),
        cfg.errorsPolicy ≠ .strict →
        ∃ out, firstChunkDecode cfg avail detection data
          = .ok ([out], cfg.encoding)) := by
  refine ⟨?_, ?_, ?_⟩
  · intro cfg avail detection data hfail hno
    unfold firstChunkDecode
    rw [hfail]
    rcases hno with h | h | h
    · simp [h, hfail, Except.map]
    · simp [h, hfail, Except.map]
    · subst h
      by_cases hda : (cfg.detectEncoding && avail) = true
      · simp [hda, hfail, Except.map]
      · simp [hda, hfail, Except.map]
  · intro cfg data h
    exact decodeBytes_ok_of_not_strict cfg.encoding h data
  · intro cfg avail detection data h
    obtain ⟨out, hout⟩ := decodeBytes_ok_of_not_strict cfg.encoding h data
    exact ⟨out, by unfold firstChunkDecode; rw [hout]⟩

/-- C2 witness: the theorem applied with the `replace` policy at a concrete
invalid-UTF-8 chunk. -/
theorem c2_first_chunk_fallback_witness :
    ∃ out, firstChunkDecode ⟨Codec.utf8, ErrorsPolicy.replace, false⟩ false
      none [0xFF] = .ok ([out], Codec.utf8) :=
  c2_first_chunk_fallback.2.2 ⟨Codec.utf8, ErrorsPolicy.replace, false⟩
    false none [0xFF] (by decide)

/-- C2 counterexample: under `strict` with detection disabled, the terminal
fallback re-decodes the same bytes with the same encoding and policy, so the
decode error escapes to the caller — the fallback does raise. -/
theorem c2_strict_fallback_raises :
    decodeBytes Codec.utf8 ErrorsPolicy.strict [0xFF] = .error ()
    ∧ firstChunkDecode ⟨Codec.utf8, ErrorsPolicy.strict, false⟩ false none
        [0xFF] = .error () :=
  ⟨rfl, rfl⟩

/-- C8: for every `DumpBuilder` call sequence in txt or md mode consisting
of `set_tree`, then n sections each built as `start_file`, `add_chunk`
calls, and `end_file(is_last)` with `is_last` true exactly for the final
section, the built document is the tree part followed by the rendered
sections joined by single `=====` separator blocks — so there are exactly
n − 1 separator tokens in total, none inside the tree part or inside a
section (hence none before the first section or after the last), and
exactly one between each pair of consecutive sections. -/
theorem c8_dump_builder_separators :
    ∀ (m : Mode) (tree : List Char)
      (sections : List (List Char × List (List Char))),
      (m = .txt ∨ m = .md) →
      countOcc SEP tree = 0 →
      (∀ sec ∈ sections,
        countOcc SEP sec.1 = 0 ∧ countOcc SEP sec.2.flatten = 0) →
      (runSections ((DumpBuilderState.init m).setTree tree) sections).buf =
        treeRender m tree ++
          joinSep sepBlock (sections.map (sectionRender m))
      ∧ countOcc SEP (treeRender m tree) = 0
      ∧ (∀ sec ∈ sections, countOcc SEP (sectionRender m sec) = 0)
      ∧ countOcc SEP sepBlock = 1
      ∧ countOcc SEP
          (runSections ((DumpBuilderState.init m).setTree tree) sections).buf
          = sections.length - 1
      ∧ (runSections ((DumpBuilderState.init m).setTree tree) sections).build
          = .text (runSections ((DumpBuilderState.init m).setTree tree)
              sections).buf := by
  intro m tree sections hm htree hsec
  have hm0 : (DumpBuilderState.init m).mode = .txt ∨
      (DumpBuilderState.init m).mode = .md := hm
  obtain ⟨hst, hstm⟩ := setTree_buf hm0 tree
  have hb0 : ((DumpBuilderState.init m).setTree tree).buf =
      treeRender m tree := by
    rw [hst]; simp [DumpBuilderState.init]
  have hmode0 : ((DumpBuilderState.init m).setTree tree).mode = m := hstm
  have hm1 : ((DumpBuilderState.init m).setTree tree).mode = .txt ∨
      ((DumpBuilderState.init m).setTree tree).mode = .md := by
    rw [hmode0]; exact hm
  obtain ⟨hrs, hrsm⟩ := runSections_buf sections _ hm1
  have hbuf : (runSections ((DumpBuilderState.init m).setTree tree)
      sections).buf = treeRender m tree ++
        joinSep sepBlock (sections.map (sectionRender m)) := by
    rw [hrs, hb0, hmode0]
  have htree0 : countOcc SEP (treeRender m tree) = 0 :=
    countOcc_treeRender hm htree
  have hsec0 : ∀ sec ∈ sections, countOcc SEP (sectionRender m sec) = 0 :=
    fun sec hs => countOcc_sectionRender hm (hsec sec hs).1 (hsec sec hs).2
  have hsep1 : countOcc SEP sepBlock = 1 := by decide
  have hcount : countOcc SEP (runSections
      ((DumpBuilderState.init m).setTree tree) sections).buf =
      sections.length - 1 := by
    rw [hbuf]
    obtain ⟨A', hA⟩ := treeRender_ends_nl m tree
    rw [hA, countOcc_SEP_left, ← hA, htree0,
      countOcc_joinSep (sections.map (sectionRender m)) ?_]
    · simp
    · intro r hr
      obtain ⟨sec, hsmem, rfl⟩ := List.mem_map.mp hr
      exact ⟨hsec0 sec hsmem, sectionRender_ends_nl m sec⟩
  have hmendm : (runSections ((DumpBuilderState.init m).setTree tree)
      sections).mode = m := by rw [hrsm, hmode0]
  have hbuild : (runSections ((DumpBuilderState.init m).setTree tree)
      sections).build = .text (runSections
        ((DumpBuilderState.init m).setTree tree) sections).buf :=
    build_text (by rw [hmendm]; exact hm)
  exact ⟨hbuf, htree0, hsec0, hsep1, hcount, hbuild⟩

/-- C8 witness: a txt-mode build with two sections contains the separator
token exactly once. -/
theorem c8_dump_builder_separators_witness :
    countOcc SEP (runSections ((DumpBuilderState.init .txt).setTree
      "r".toList) [("a".toList, ["A".toList]),
      ("b".toList, ["B".toList])]).buf = 1 :=
  (c8_dump_builder_separators .txt "r".toList
    [("a".toList, ["A".toList]), ("b".toList, ["B".toList])]
    (Or.inl rfl) (by decide) (by decide)).2.2.2.2.1

/-- C9: the scan pipeline emits the tree first; tree-only runs emit `done`
immediately after the tree; otherwise the total count follows, then, per
file in order, either only a progress tick (collapsed and excluded) or a
header followed by the skip placeholder or the content chunks in read
order, then the section separator and the 1-based progress tick; and the
sequence ends with exactly one terminal event (`done` on success, a single
`error` on unhandled failure) with nothing after it. -/
theorem c9_scan_event_order :
    ∀ inp : ScanInput,
      (scanEvents inp).head? = some (.tree inp.tree)
      ∧ (inp.onlyTree = true → scanEvents inp = [.tree inp.tree, .done])
      ∧ (inp.onlyTree = false →
          (scanEvents inp).take 2 =
            [.tree inp.tree, .total inp.files.length])
      ∧ (inp.onlyTree = false →
          (∀ f ∈ inp.files, f.collapsed = false → f.readError = none) →
          scanEvents inp = .tree inp.tree :: .total inp.files.length ::
            (specFilesEvents inp.includeCollapsed 1 inp.files ++ [.done]))
      ∧ (∃ pre t, scanEvents inp = pre ++ [t] ∧ isTerminal t = true ∧
          ∀ e ∈ pre, isTerminal e = false) := by
  intro inp
  refine ⟨?_, ?_, ?_, ?_, ?_⟩
  · by_cases h : inp.onlyTree = true <;> simp [scanEvents, h]
  · intro h; simp [scanEvents, h]
  · intro h; simp [scanEvents, h]
  · intro h hok
    simp [scanEvents, h,
      runFiles_no_error inp.includeCollapsed 1 inp.files hok]
  · by_cases h : inp.onlyTree = true
    · refine ⟨[.tree inp.tree], .done, by simp [scanEvents, h], rfl, ?_⟩
      intro e he
      simp only [List.mem_singleton] at he
      subst he; rfl
    · have h' : inp.onlyTree = false := by simpa using h
      obtain ⟨pre, t, heq, ht, hpre⟩ :=
        runFiles_terminal inp.includeCollapsed 1 inp.files
      refine ⟨.tree inp.tree :: .total inp.files.length :: pre, t, ?_, ht, ?_⟩
      · simp [scanEvents, h', heq]
      · intro e he
        rcases List.mem_cons.mp he with hh | hh
        · subst hh; rfl
        rcases List.mem_cons.mp hh with hh | hh
        · subst hh; rfl
        · exact hpre e hh

/-- C9 witness: the theorem's success-shape conjunct applied to a concrete
two-file scan (one streamed file, one collapsed file with collapsed content
included). -/
theorem c9_scan_event_order_witness :
    scanEvents ⟨"T".toList, false, true,
        [⟨"a".toList, false, ["x".toList], none⟩,
         ⟨"b".toList, true, [], none⟩]⟩ =
      .tree "T".toList :: .total 2 ::
        (specFilesEvents true 1
          [⟨"a".toList, false, ["x".toList], none⟩,
           ⟨"b".toList, true, [], none⟩] ++ [.done]) :=
  (c9_scan_event_order ⟨"T".toList, false, true,
      [⟨"a".toList, false, ["x".toList], none⟩,
       ⟨"b".toList, true, [], none⟩]⟩).2.2.2.1 rfl (by decide)

end ProjectDumper
